import Mathlib

/-!
Verification of the pyield-data update scripts.

The repository is a collection of daily-update scripts (`update.py`,
`update_di.py`, `update_anbima.py`, `update_bc_sec.py`, `update_0900.py`)
that all follow the same shape: resolve a target trade date, fetch a table
of rows for that date, merge it into an existing historical table by
concatenation + deduplicate-on-key-keep-last + sort, and write the result
back.

We embed the dataframe pipeline shallowly:

* a `Table` is a list of column names together with rows of cells, where a
  cell is `Option Int` (`none` models a null / missing value; the concrete
  element type of the cells is irrelevant to every claim, only decidable
  equality and a linear order on cells are used);
* `concatDiag` models `pl.concat(..., how="diagonal_relaxed")` and
  `pd.concat` (outer join): the output columns are the union of the two
  inputs' columns in order of first appearance, and every row is reindexed
  to that column list with `none` filled in for columns its source table
  lacked;
* `dedupLast` models `unique(subset=key, keep="last")` /
  `drop_duplicates(subset=key, keep="last")`: the last occurrence of each
  key survives, survivors keep their relative order;
* `sortRows` models `.sort(cols)` / `.sort_values(cols)`: an insertion
  sort on the lexicographic cell order (`none` ordered first).
-/

namespace PyieldData

/-- A dataframe cell: `none` is a null. -/
abbrev Cell := Option Int

/-- A dataframe row: cells aligned positionally with the table's columns. -/
abbrev Row := List Cell

/-- A dataframe: named columns and rows of cells.  Row `i`'s cell for
column `cols[j]` sits at position `j`. -/
structure Table where
  cols : List String
  rows : List Row
deriving DecidableEq, Repr

/-- The cell of `row` (aligned with `cols`) at column `c`: the value at the
first occurrence of `c` in `cols`, or `none` when `c` is absent (a column a
table lacks reads as null). -/
def getCell : List String → Row → String → Cell
  | [], _, _ => none
  | c2 :: cs, row, c => if c2 = c then row.headD none else getCell cs row.tail c

/-- Re-express a row stated over columns `src` as a row over columns `dst`,
filling `none` for columns of `dst` absent from `src`. -/
def reindex (src dst : List String) (row : Row) : Row :=
  dst.map (getCell src row)

/-- Union of two column lists in order of first appearance, as produced by
`pl.concat(how="diagonal_relaxed")` and `pd.concat` (outer join). -/
def unionCols (c1 c2 : List String) : List String :=
  c1 ++ c2.filter (fun c => decide (c ∉ c1))

/-- Diagonal concatenation of two tables: column union, rows of both inputs
reindexed to the union with nulls filling the missing columns. -/
def concatDiag (t1 t2 : Table) : Table :=
  { cols := unionCols t1.cols t2.cols
    rows := t1.rows.map (reindex t1.cols (unionCols t1.cols t2.cols)) ++
      t2.rows.map (reindex t2.cols (unionCols t1.cols t2.cols)) }

/-- The key tuple of a row: its cells at the id columns, in order. -/
def keyOf (cols idCols : List String) (row : Row) : List Cell :=
  idCols.map (getCell cols row)

/-- Keep-last deduplication by a key function, as in
`unique(subset=key, keep="last")` / `drop_duplicates(subset=key,
keep="last")`: an element survives iff no later element has the same key;
survivors keep their relative order. -/
def dedupLast {α κ : Type} [DecidableEq κ] (f : α → κ) : List α → List α
  | [] => []
  | r :: rs =>
      if rs.any (fun r2 => decide (f r2 = f r)) then dedupLast f rs
      else r :: dedupLast f rs

/-- Order on cells: nulls first, then the values' order. -/
def cellLe : Cell → Cell → Bool
  | none, _ => true
  | some _, none => false
  | some a, some b => decide (a ≤ b)

/-- Lexicographic order on key tuples. -/
def keyLe : List Cell → List Cell → Bool
  | [], _ => true
  | _ :: _, [] => false
  | a :: as, b :: bs => if a = b then keyLe as bs else cellLe a b

/-- Insert an element into a (sorted) list, before the first element it is
`le` to. -/
def insertRow {α : Type} (le : α → α → Bool) (x : α) : List α → List α
  | [] => [x]
  | y :: ys => if le x y then x :: y :: ys else y :: insertRow le x ys

/-- Insertion sort by a boolean relation; models `.sort(cols)` /
`.sort_values(cols)` (any sorted permutation — the pipelines only ever
compare rows through their key tuples). -/
def sortRows {α : Type} (le : α → α → Bool) : List α → List α
  | [] => []
  | x :: xs => insertRow le x (sortRows le xs)

/-- The upsert-merge recipe shared by every revision of the script, with
separate deduplication and sort columns (they differ in `update_di.py`):
diagonal concat, deduplicate on `dedupCols` keeping the last occurrence,
sort by `sortCols`. -/
def upsertWith (dedupCols sortCols : List String) (ex inc : Table) : Table :=
  { cols := (concatDiag ex inc).cols
    rows :=
      sortRows
        (fun a b =>
          keyLe (keyOf (concatDiag ex inc).cols sortCols a)
            (keyOf (concatDiag ex inc).cols sortCols b))
        (dedupLast (keyOf (concatDiag ex inc).cols dedupCols)
          (concatDiag ex inc).rows) }

/-- The upsert of `update.py`'s `update_dataset` (and `update_bc_sec.py`,
`update_anbima.py`): deduplication and sort use the same id columns. -/
def upsert (idCols : List String) (ex inc : Table) : Table :=
  upsertWith idCols idCols ex inc

/-- `update.py`'s `update_dataset`, given the stored table (read from the
parquet file) and the fetched table: raises `ValueError` when the fetch
returned no rows, otherwise produces the merged table to be written. -/
def update_dataset (idCols : List String) (stored fetched : Table) :
    Except String Table :=
  if fetched.rows.isEmpty then Except.error "No data available"
  else Except.ok (upsert idCols stored fetched)

/-- The state of the parquet file after running `update_dataset`: unchanged
when the update raised, the merged table when it succeeded (the write is
the last step of `update_dataset`). -/
def runUpdate (idCols : List String) (stored fetched : Table) : Table :=
  match update_dataset idCols stored fetched with
  | Except.error _ => stored
  | Except.ok t => t

/-- Id columns of the DI1 dataset in `update.py` (`DI1_CONFIG`). -/
def di1IdCols : List String := ["TradeDate", "ExpirationDate"]

/-- Id columns of the TPF dataset in `update.py` (`TPF_CONFIG`). -/
def tpfIdCols : List String := ["ReferenceDate", "BondType", "MaturityDate"]

/-- A calendar date, as Python's `datetime.date`. -/
structure Date where
  year : Nat
  month : Nat
  day : Nat
deriving DecidableEq, Repr

/-- `update.py`'s `is_special_holiday`: the date equals December 24 or
December 31 of its own year (no trading session on those days). -/
def is_special_holiday (d : Date) : Bool :=
  decide (d = Date.mk d.year 12 24 ∨ d = Date.mk d.year 12 31)

/-- `update.py`'s `main`, given the resolved target date, the two stored
tables and the two fetched tables.  Returns the final state of both stores
and whether any update ran.  When the target date is a special holiday,
`main` returns before touching either dataset; otherwise it updates DI1
then TPF, and an exception in either stops the run (an exception in TPF
leaves the already-written DI1 store updated). -/
def mainRun (target : Date) (diStore tpfStore diFetched tpfFetched : Table) :
    (Table × Table) × Bool :=
  if is_special_holiday target then ((diStore, tpfStore), false)
  else
    match update_dataset di1IdCols diStore diFetched with
    | Except.error _ => ((diStore, tpfStore), false)
    | Except.ok di2 =>
        match update_dataset tpfIdCols tpfStore tpfFetched with
        | Except.error _ => ((di2, tpfStore), false)
        | Except.ok tpf2 => ((di2, tpf2), true)

/-!
Target-date resolution (`update.py`'s `determine_target_date`).

The business-day calendar is the external oracle `yd.bday` of the pyield
library; we model dates as day ordinals (`Nat`) and the oracle as a
predicate `cal : Nat → Bool`.  `yd.bday.offset(d, -1)` on a business day
and `yd.bday.last_business_day()` on a non-business day both resolve to
the most recent business day strictly before `d`, modelled by `prevBday`
(searching downward from `d - 1`).
-/

/-- The most recent business day strictly before the given day, if any. -/
def prevBday (cal : Nat → Bool) : Nat → Option Nat
  | 0 => none
  | d + 1 => if cal d then some d else prevBday cal d

/-- Modelled from the spec: pyield's `yd.bday.last_business_day()`
oracle — the most recent business day not after today (today itself when
today is a business day). -/
def last_business_day (cal : Nat → Bool) (today : Nat) : Option Nat :=
  if cal today then some today else prevBday cal today

/-- `update.py`'s `determine_target_date`, as a function of the clock
reading (`today`, `hour`) taken from `yd.now()` and the calendar oracle:
on a business day, today itself from the cutoff hour 20 onward and the
previous business day before it; on a non-business day, the last business
day that existed. -/
def determine_target_date (cal : Nat → Bool) (today hour : Nat) :
    Option Nat :=
  if cal today then
    if hour < 20 then prevBday cal today else some today
  else last_business_day cal today

/-- `determine_target_date` again, over structured calendar dates, with
the three pyield calendar oracles (`is_business_day`, `offset(·, -1)`,
`last_business_day`) as explicit oracle parameters; used for the claims
that relate the resolver to the month/day fields of its output. -/
def determineTargetDateD (isBday : Date → Bool) (offPrev lastB : Date → Date)
    (today : Date) (hour : Nat) : Date :=
  if isBday today then
    if hour < 20 then offPrev today else today
  else lastB today

/-!
The `update_di.py` revision: pandas pipeline with
`drop(columns=["DaysToExp"])`, a required `SettlementRate` column,
deduplication on `["TradeDate", "TickerSymbol"]` but sort on
`["TradeDate", "ExpirationDate"]`.
-/

/-- Drop the cells of a row sitting at columns named `c`. -/
def dropCells : List String → Row → String → Row
  | [], _, _ => []
  | c2 :: cs, row, c =>
      if c2 = c then dropCells cs row.tail c
      else row.headD none :: dropCells cs row.tail c

/-- `df.drop(columns=[c])` with pandas' default `errors="raise"`: remove
column `c` and its cells, raising `KeyError` when the column is absent. -/
def dropColumn (t : Table) (c : String) : Except String Table :=
  if c ∈ t.cols then
    Except.ok (Table.mk (t.cols.filter (fun c2 => decide (c2 ≠ c)))
      (t.rows.map (fun r => dropCells t.cols r c)))
  else Except.error "KeyError"

/-- `update_di.py`'s `get_di_on_date`, given the table returned by the
`yd.futures` fetch: drop `DaysToExp` (raising `KeyError` when that column
is absent), then raise `ValueError` when the `SettlementRate` column is
absent. -/
def get_di_on_date (fetched : Table) : Except String Table :=
  match dropColumn fetched "DaysToExp" with
  | Except.error e => Except.error e
  | Except.ok df =>
      if "SettlementRate" ∈ df.cols then Except.ok df
      else Except.error "There is no Settlement data for today."

/-- Dedup key columns of `update_di.py`'s pipeline. -/
def diKeyCols : List String := ["TradeDate", "TickerSymbol"]

/-- Sort columns of `update_di.py`'s pipeline — not the dedup columns. -/
def diSortCols : List String := ["TradeDate", "ExpirationDate"]

/-- `update_di.py`'s module-level pipeline, given the stored table and the
raw fetched table: fetch/validate via `get_di_on_date` (whose exception
propagates before the concat is evaluated), then concat, drop duplicates
on `(TradeDate, TickerSymbol)` keeping last, sort by
`(TradeDate, ExpirationDate)`. -/
def runUpdateDi (stored fetched : Table) : Except String Table :=
  match get_di_on_date fetched with
  | Except.error e => Except.error e
  | Except.ok dfNew => Except.ok (upsertWith diKeyCols diSortCols stored dfNew)

/-- The state of `di_data.parquet` after running `update_di.py`: unchanged
when `get_di_on_date` raised (the write is the last step of the pipeline
expression). -/
def updateDiStore (stored fetched : Table) : Table :=
  match runUpdateDi stored fetched with
  | Except.error _ => stored
  | Except.ok t => t

/-!
The VNA updater (`update_0900.py`'s `update_vna_dataframe`).

Only the early-return structure and the row-set bookkeeping matter to the
claims; a VNA row is modelled as its `reference_date` (a day ordinal)
paired with an abstract payload standing for the float columns
(`inflation`, `vna_du`, `vna_dc`), whose numeric computation (floating
point) is abstracted into the `payload` parameter.
-/

/-- A VNA row: reference date plus the abstracted numeric payload. -/
abbrev VnaRow := Nat × Int

/-- The maximum `reference_date` of the existing VNA table
(`df_vna["reference_date"].max()`). -/
def maxRef (l : List VnaRow) : Nat :=
  l.foldl (fun m p => max m p.1) 0

/-- Modelled from the spec: pyield's
`yd.bday.generate(lo, hi, inclusive="right")` oracle — the business days
`d` with `lo < d ≤ hi`, ascending. -/
def bdaysIn (cal : Nat → Bool) (lo hi : Nat) : List Nat :=
  (List.range (hi + 1)).filter (fun d => decide (lo < d) && cal d)

/-- `update_0900.py`'s `update_vna_dataframe`: return the existing table
unchanged when its maximum reference date is on or after today, or when
`yd.bday.generate(last, today, inclusive="right")` is empty; otherwise
append one row per generated business day, deduplicate on
`reference_date` keeping last, and sort by `reference_date`. -/
def update_vna_dataframe (cal : Nat → Bool) (today : Nat)
    (dfVna : List VnaRow) (payload : Nat → Int) : List VnaRow :=
  if today ≤ maxRef dfVna then dfVna
  else
    if (bdaysIn cal (maxRef dfVna) today).isEmpty then dfVna
    else
      if ((bdaysIn cal (maxRef dfVna) today).map
          (fun d => (d, payload d))).isEmpty then dfVna
      else
        sortRows (fun a b => decide (a.1 ≤ b.1))
          (dedupLast (fun p : VnaRow => p.1)
            (dfVna ++ (bdaysIn cal (maxRef dfVna) today).map
              (fun d => (d, payload d))))

/-! ### Basic lemmas: cell order, key order -/

theorem cellLe_total (a b : Cell) : cellLe a b = true ∨ cellLe b a = true := by
  cases a with
  | none => exact Or.inl rfl
  | some x =>
      cases b with
      | none => exact Or.inr rfl
      | some y =>
          simp only [cellLe, decide_eq_true_eq]
          omega

theorem cellLe_trans {a b c : Cell} (h1 : cellLe a b = true)
    (h2 : cellLe b c = true) : cellLe a c = true := by
  cases a with
  | none => rfl
  | some x =>
      cases b with
      | none => exact absurd h1 (by simp [cellLe])
      | some y =>
          cases c with
          | none => exact absurd h2 (by simp [cellLe])
          | some z =>
              simp only [cellLe, decide_eq_true_eq] at *
              omega

theorem cellLe_antisymm {a b : Cell} (h1 : cellLe a b = true)
    (h2 : cellLe b a = true) : a = b := by
  cases a with
  | none =>
      cases b with
      | none => rfl
      | some y => exact absurd h2 (by simp [cellLe])
  | some x =>
      cases b with
      | none => exact absurd h1 (by simp [cellLe])
      | some y =>
          simp only [cellLe, decide_eq_true_eq, Option.some.injEq] at *
          omega

theorem keyLe_total (k1 k2 : List Cell) :
    keyLe k1 k2 = true ∨ keyLe k2 k1 = true := by
  induction k1 generalizing k2 with
  | nil => left; rfl
  | cons a as ih =>
      cases k2 with
      | nil => right; rfl
      | cons b bs =>
          simp only [keyLe]
          by_cases h : a = b
          · subst h; simp only [if_pos rfl]; exact ih bs
          · rw [if_neg h, if_neg (Ne.symm h)]; exact cellLe_total a b

theorem keyLe_trans {k1 k2 k3 : List Cell} (h1 : keyLe k1 k2 = true)
    (h2 : keyLe k2 k3 = true) : keyLe k1 k3 = true := by
  induction k1 generalizing k2 k3 with
  | nil => rfl
  | cons a as ih =>
      cases k2 with
      | nil => simp [keyLe] at h1
      | cons b bs =>
          cases k3 with
          | nil => simp [keyLe] at h2
          | cons c cs =>
              simp only [keyLe] at h1 h2 ⊢
              by_cases hab : a = b
              · subst hab
                rw [if_pos rfl] at h1
                by_cases hac : a = c
                · subst hac; rw [if_pos rfl] at h2 ⊢; exact ih h1 h2
                · rw [if_neg hac] at h2 ⊢; exact h2
              · rw [if_neg hab] at h1
                by_cases hbc : b = c
                · subst hbc; rw [if_neg hab]; exact h1
                · rw [if_neg hbc] at h2
                  by_cases hac : a = c
                  · subst hac
                    exact absurd (cellLe_antisymm h1 h2) hab
                  · rw [if_neg hac]; exact cellLe_trans h1 h2

theorem keyLe_antisymm {k1 k2 : List Cell} (h1 : keyLe k1 k2 = true)
    (h2 : keyLe k2 k1 = true) : k1 = k2 := by
  induction k1 generalizing k2 with
  | nil =>
      cases k2 with
      | nil => rfl
      | cons b bs => simp [keyLe] at h2
  | cons a as ih =>
      cases k2 with
      | nil => simp [keyLe] at h1
      | cons b bs =>
          simp only [keyLe] at h1 h2
          by_cases hab : a = b
          · subst hab
            rw [if_pos rfl] at h1 h2
            rw [ih h1 h2]
          · rw [if_neg hab] at h1
            rw [if_neg (Ne.symm hab)] at h2
            exact absurd (cellLe_antisymm h1 h2) hab

/-! ### Basic lemmas: cells, reindexing, column unions -/

theorem getCell_of_not_mem (cols : List String) (row : Row) (c : String)
    (h : c ∉ cols) : getCell cols row c = none := by
  induction cols generalizing row with
  | nil => rfl
  | cons d ds ih =>
      have hdc : d ≠ c := fun hd => h (hd ▸ List.mem_cons_self d ds)
      rw [getCell, if_neg hdc]
      exact ih _ (fun hm => h (List.mem_cons_of_mem d hm))

theorem getCell_map (dst : List String) (g : String → Cell) (c : String) :
    getCell dst (dst.map g) c = if c ∈ dst then g c else none := by
  induction dst with
  | nil => simp [getCell]
  | cons d ds ih =>
      rw [List.map_cons, getCell]
      by_cases h : d = c
      · subst h; simp [List.headD]
      · rw [if_neg h, List.tail_cons, ih]
        by_cases hc : c ∈ ds
        · rw [if_pos hc, if_pos (List.mem_cons_of_mem d hc)]
        · rw [if_neg hc, if_neg (by simp [List.mem_cons, Ne.symm h, hc])]

theorem getCell_reindex (src dst : List String) (row : Row) (c : String)
    (h : ∀ x, x ∈ src → x ∈ dst) :
    getCell dst (reindex src dst row) c = getCell src row c := by
  rw [reindex, getCell_map]
  by_cases hc : c ∈ dst
  · rw [if_pos hc]
  · rw [if_neg hc, getCell_of_not_mem src row c (fun hs => hc (h c hs))]

theorem keyOf_reindex (src dst idCols : List String) (row : Row)
    (h : ∀ x, x ∈ src → x ∈ dst) :
    keyOf dst idCols (reindex src dst row) = keyOf src idCols row := by
  unfold keyOf
  exact List.map_congr_left (fun c _ => getCell_reindex src dst row c h)

theorem reindex_reindex (src dst : List String) (row : Row)
    (h : ∀ x, x ∈ src → x ∈ dst) :
    reindex dst dst (reindex src dst row) = reindex src dst row := by
  unfold reindex
  exact List.map_congr_left (fun c _ => getCell_reindex src dst row c h)

theorem mem_unionCols (c : String) (c1 c2 : List String) :
    c ∈ unionCols c1 c2 ↔ c ∈ c1 ∨ c ∈ c2 := by
  simp only [unionCols, List.mem_append, List.mem_filter, decide_eq_true_eq]
  constructor
  · rintro (h | ⟨h, _⟩)
    · exact Or.inl h
    · exact Or.inr h
  · rintro (h | h)
    · exact Or.inl h
    · by_cases h1 : c ∈ c1
      · exact Or.inl h1
      · exact Or.inr ⟨h, h1⟩

theorem subset_unionCols_left (c1 c2 : List String) :
    ∀ x, x ∈ c1 → x ∈ unionCols c1 c2 :=
  fun x hx => (mem_unionCols x c1 c2).mpr (Or.inl hx)

theorem subset_unionCols_right (c1 c2 : List String) :
    ∀ x, x ∈ c2 → x ∈ unionCols c1 c2 :=
  fun x hx => (mem_unionCols x c1 c2).mpr (Or.inr hx)

/-! ### Lemmas about keep-last deduplication -/

theorem mem_of_mem_dedupLast {α κ : Type} [DecidableEq κ] {f : α → κ}
    {x : α} {l : List α} (h : x ∈ dedupLast f l) : x ∈ l := by
  induction l with
  | nil => exact absurd h (List.not_mem_nil x)
  | cons r rs ih =>
      rw [dedupLast] at h
      by_cases hc : rs.any (fun r2 => decide (f r2 = f r)) = true
      · rw [if_pos hc] at h
        exact List.mem_cons_of_mem r (ih h)
      · rw [if_neg hc] at h
        rcases List.mem_cons.mp h with h | h
        · exact h ▸ List.mem_cons_self r rs
        · exact List.mem_cons_of_mem r (ih h)

theorem any_dedupLast {α κ : Type} [DecidableEq κ] (f : α → κ) (k : κ)
    (l : List α) :
    (dedupLast f l).any (fun x => decide (f x = k)) =
      l.any (fun x => decide (f x = k)) := by
  induction l with
  | nil => rfl
  | cons r rs ih =>
      rw [dedupLast, List.any_cons]
      by_cases hc : (rs.any fun r2 => decide (f r2 = f r)) = true
      · rw [if_pos hc, ih]
        by_cases hk : f r = k
        · have hrs : (rs.any fun x => decide (f x = k)) = true := by
            rcases List.any_eq_true.mp hc with ⟨x, hx, hfx⟩
            exact List.any_eq_true.mpr
              ⟨x, hx, decide_eq_true (by rw [of_decide_eq_true hfx, hk])⟩
          rw [hrs, decide_eq_true hk, Bool.true_or]
        · rw [decide_eq_false hk, Bool.false_or]
      · rw [if_neg hc, List.any_cons, ih]

theorem pairwise_dedupLast {α κ : Type} [DecidableEq κ] (f : α → κ)
    (l : List α) :
    (dedupLast f l).Pairwise (fun a b => f a ≠ f b) := by
  induction l with
  | nil => exact List.Pairwise.nil
  | cons r rs ih =>
      rw [dedupLast]
      by_cases hc : rs.any (fun r2 => decide (f r2 = f r)) = true
      · rw [if_pos hc]; exact ih
      · rw [if_neg hc]
        refine List.pairwise_cons.mpr ⟨?_, ih⟩
        intro z hz hfz
        have hzr : z ∈ rs := mem_of_mem_dedupLast hz
        have : rs.any (fun r2 => decide (f r2 = f r)) = true :=
          List.any_eq_true.mpr ⟨z, hzr, decide_eq_true hfz.symm⟩
        exact hc this

theorem dedupLast_eq_self {α κ : Type} [DecidableEq κ] {f : α → κ}
    {l : List α} (h : l.Pairwise (fun a b => f a ≠ f b)) :
    dedupLast f l = l := by
  induction l with
  | nil => rfl
  | cons r rs ih =>
      rw [dedupLast]
      have hhead := (List.pairwise_cons.mp h).1
      have hc : rs.any (fun r2 => decide (f r2 = f r)) = false := by
        rw [List.any_eq_false]
        intro x hx
        simp only [decide_eq_true_eq]
        exact fun he => hhead x hx he.symm
      rw [hc]
      simp only [Bool.false_eq_true, if_false]
      rw [ih (List.pairwise_cons.mp h).2]

theorem dedupLast_filter {α κ : Type} [DecidableEq κ] (f : α → κ) (k : κ)
    (l : List α) :
    (dedupLast f l).filter (fun x => decide (f x = k)) =
      ((l.filter (fun x => decide (f x = k))).getLast?).toList := by
  induction l with
  | nil => rfl
  | cons r rs ih =>
      rw [dedupLast]
      by_cases hc : rs.any (fun r2 => decide (f r2 = f r)) = true
      · rw [if_pos hc, ih, List.filter_cons]
        by_cases hk : f r = k
        · rw [if_pos (decide_eq_true hk)]
          have hne : rs.filter (fun x => decide (f x = k)) ≠ [] := by
            rcases List.any_eq_true.mp hc with ⟨x, hx, hfx⟩
            have hfxk : f x = k := by
              simp only [decide_eq_true_eq] at hfx
              rw [hfx, hk]
            intro hnil
            have := List.filter_eq_nil_iff.mp hnil x hx
            exact this (decide_eq_true hfxk)
          rcases List.exists_cons_of_ne_nil hne with ⟨y, ys, hys⟩
          rw [hys, List.getLast?_cons_cons]
        · rw [if_neg (by simp [hk])]
      · rw [if_neg hc, List.filter_cons, List.filter_cons]
        by_cases hk : f r = k
        · rw [if_pos (decide_eq_true hk), if_pos (decide_eq_true hk)]
          have hfil : rs.filter (fun x => decide (f x = k)) = [] := by
            rw [List.filter_eq_nil_iff]
            intro x hx hdx
            have hfxk : f x = k := of_decide_eq_true hdx
            exact hc (List.any_eq_true.mpr
              ⟨x, hx, decide_eq_true (by rw [hfxk, hk])⟩)
          have hded : (dedupLast f rs).filter (fun x => decide (f x = k)) = [] := by
            rw [ih, hfil]
            rfl
          rw [hded, hfil]
          rfl
        · rw [if_neg (by simp [hk]), if_neg (by simp [hk]), ih]

theorem dedupLast_dedupLast_append {α κ : Type} [DecidableEq κ] (f : α → κ)
    (xs ys : List α) :
    dedupLast f (dedupLast f xs ++ ys) = dedupLast f (xs ++ ys) := by
  induction xs with
  | nil => rfl
  | cons x xs ih =>
      rw [List.cons_append, dedupLast, dedupLast]
      by_cases hx : xs.any (fun r2 => decide (f r2 = f x)) = true
      · rw [if_pos hx, ih]
        have : (xs ++ ys).any (fun r2 => decide (f r2 = f x)) = true := by
          rw [List.any_append, hx, Bool.true_or]
        rw [if_pos this]
      · rw [if_neg hx, List.cons_append, dedupLast]
        have hded : (dedupLast f xs).any (fun r2 => decide (f r2 = f x)) =
            xs.any (fun r2 => decide (f r2 = f x)) := any_dedupLast f (f x) xs
        have hcond : (dedupLast f xs ++ ys).any (fun r2 => decide (f r2 = f x)) =
            (xs ++ ys).any (fun r2 => decide (f r2 = f x)) := by
          rw [List.any_append, List.any_append, hded]
        rw [hcond, ih]

theorem dedupLast_append_dedupLast {α κ : Type} [DecidableEq κ] (f : α → κ)
    (xs ys : List α) :
    dedupLast f (xs ++ dedupLast f ys) = dedupLast f (xs ++ ys) := by
  induction xs with
  | nil =>
      simp only [List.nil_append]
      exact dedupLast_eq_self (pairwise_dedupLast f ys)
  | cons x xs ih =>
      rw [List.cons_append, List.cons_append, dedupLast, dedupLast]
      have hcond : (xs ++ dedupLast f ys).any (fun r2 => decide (f r2 = f x)) =
          (xs ++ ys).any (fun r2 => decide (f r2 = f x)) := by
        rw [List.any_append, List.any_append, any_dedupLast]
      rw [hcond, ih]

theorem dedupLast_append_of_all_mem {α κ : Type} [DecidableEq κ] {f : α → κ}
    {xs ys : List α}
    (h : ∀ x ∈ xs, ys.any (fun y => decide (f y = f x)) = true) :
    dedupLast f (xs ++ ys) = dedupLast f ys := by
  induction xs with
  | nil => rfl
  | cons x xs ih =>
      rw [List.cons_append, dedupLast]
      have : (xs ++ ys).any (fun r2 => decide (f r2 = f x)) = true := by
        rw [List.any_append, h x (List.mem_cons_self x xs), Bool.or_true]
      rw [if_pos this]
      exact ih (fun z hz => h z (List.mem_cons_of_mem x hz))

theorem dedupLast_append_pairwise {α κ : Type} [DecidableEq κ] {f : α → κ}
    {xs : List α} (ys : List α) (h : xs.Pairwise (fun a b => f a ≠ f b)) :
    dedupLast f (xs ++ ys) =
      xs.filter (fun x => !(ys.any (fun y => decide (f y = f x)))) ++
        dedupLast f ys := by
  induction xs with
  | nil => rfl
  | cons x xs ih =>
      rw [List.cons_append, dedupLast, List.filter_cons]
      have hx : xs.any (fun r2 => decide (f r2 = f x)) = false := by
        rw [List.any_eq_false]
        intro z hz
        simp only [decide_eq_true_eq]
        exact fun he => (List.pairwise_cons.mp h).1 z hz he.symm
      have hcond : (xs ++ ys).any (fun r2 => decide (f r2 = f x)) =
          ys.any (fun y => decide (f y = f x)) := by
        rw [List.any_append, hx, Bool.false_or]
      rw [hcond]
      by_cases hys : ys.any (fun y => decide (f y = f x)) = true
      · rw [if_pos hys, if_neg (by simp [hys]),
          ih (List.pairwise_cons.mp h).2]
      · rw [if_neg hys, if_pos (by simp [Bool.eq_false_iff.mpr hys]),
          ih (List.pairwise_cons.mp h).2, List.cons_append]

theorem dedupLast_perm_prefix {α κ : Type} [DecidableEq κ] {f : α → κ}
    {l1 l2 : List α} (ys : List α) (hp : l1.Perm l2)
    (h : l1.Pairwise (fun a b => f a ≠ f b)) :
    (dedupLast f (l1 ++ ys)).Perm (dedupLast f (l2 ++ ys)) := by
  have h2 : l2.Pairwise (fun a b => f a ≠ f b) :=
    (hp.pairwise_iff (fun hab => Ne.symm hab)).mp h
  rw [dedupLast_append_pairwise ys h, dedupLast_append_pairwise ys h2]
  exact (hp.filter _).append_right _

/-! ### Lemmas about sorting -/

theorem perm_insertRow {α : Type} (le : α → α → Bool) (x : α) (l : List α) :
    (insertRow le x l).Perm (x :: l) := by
  induction l with
  | nil => exact List.Perm.refl _
  | cons y ys ih =>
      rw [insertRow]
      by_cases h : le x y = true
      · rw [if_pos h]
      · rw [if_neg h]
        exact (ih.cons y).trans (List.Perm.swap x y ys)

theorem perm_sortRows {α : Type} (le : α → α → Bool) (l : List α) :
    (sortRows le l).Perm l := by
  induction l with
  | nil => exact List.Perm.refl _
  | cons x xs ih =>
      rw [sortRows]
      exact (perm_insertRow le x (sortRows le xs)).trans (ih.cons x)

theorem sorted_insertRow {α : Type} {le : α → α → Bool}
    (htot : ∀ a b, le a b = true ∨ le b a = true)
    (htr : ∀ a b c, le a b = true → le b c = true → le a c = true)
    (x : α) {l : List α}
    (h : l.Pairwise (fun a b => le a b = true)) :
    (insertRow le x l).Pairwise (fun a b => le a b = true) := by
  induction l with
  | nil => exact List.pairwise_singleton _ x
  | cons y ys ih =>
      rw [insertRow]
      by_cases hxy : le x y = true
      · rw [if_pos hxy]
        refine List.pairwise_cons.mpr ⟨?_, h⟩
        intro z hz
        rcases List.mem_cons.mp hz with hz | hz
        · exact hz ▸ hxy
        · exact htr x y z hxy ((List.pairwise_cons.mp h).1 z hz)
      · rw [if_neg hxy]
        have hyx : le y x = true := (htot x y).resolve_left hxy
        refine List.pairwise_cons.mpr ⟨?_, ih (List.pairwise_cons.mp h).2⟩
        intro z hz
        have : z ∈ x :: ys := (perm_insertRow le x ys).mem_iff.mp hz
        rcases List.mem_cons.mp this with hz2 | hz2
        · exact hz2 ▸ hyx
        · exact (List.pairwise_cons.mp h).1 z hz2

theorem sorted_sortRows {α : Type} {le : α → α → Bool}
    (htot : ∀ a b, le a b = true ∨ le b a = true)
    (htr : ∀ a b c, le a b = true → le b c = true → le a c = true)
    (l : List α) :
    (sortRows le l).Pairwise (fun a b => le a b = true) := by
  induction l with
  | nil => exact List.Pairwise.nil
  | cons x xs ih => exact sorted_insertRow htot htr x ih

/-- Two sorted lists that are permutations of each other and whose keys are
pairwise distinct are equal, provided `le` is antisymmetric up to key
equality.  This is what makes the sorted output of the upsert canonical. -/
theorem eq_of_perm_sorted_keys {α κ : Type} [DecidableEq κ] {f : α → κ}
    {le : α → α → Bool}
    (hanti : ∀ a b, le a b = true → le b a = true → f a = f b) :
    ∀ l1 l2 : List α, l1.Perm l2 →
      l1.Pairwise (fun a b => le a b = true) →
      l2.Pairwise (fun a b => le a b = true) →
      l1.Pairwise (fun a b => f a ≠ f b) →
      l1 = l2 := by
  intro l1
  induction l1 with
  | nil =>
      intro l2 hp _ _ _
      exact (hp.symm.eq_nil).symm
  | cons a l1t ih =>
      intro l2 hp hs1 hs2 hd
      cases l2 with
      | nil => exact absurd hp.eq_nil (by simp)
      | cons b l2t =>
          by_cases hab : a = b
          · subst hab
            rw [ih l2t hp.cons_inv (List.pairwise_cons.mp hs1).2
              (List.pairwise_cons.mp hs2).2 (List.pairwise_cons.mp hd).2]
          · exfalso
            have hbmem : b ∈ a :: l1t := hp.mem_iff.mpr (List.mem_cons_self b l2t)
            have hb1 : b ∈ l1t := by
              rcases List.mem_cons.mp hbmem with h | h
              · exact absurd h.symm hab
              · exact h
            have hamem : a ∈ b :: l2t := hp.mem_iff.mp (List.mem_cons_self a l1t)
            have ha2 : a ∈ l2t := by
              rcases List.mem_cons.mp hamem with h | h
              · exact absurd h hab
              · exact h
            have hab2 : le a b = true := (List.pairwise_cons.mp hs1).1 b hb1
            have hba : le b a = true := (List.pairwise_cons.mp hs2).1 a ha2
            exact (List.pairwise_cons.mp hd).1 b hb1 (hanti a b hab2 hba)

/-! ### Helper lemmas about the upsert pipeline -/

theorem getLast?_cons_of_ne_nil {α : Type} (x : α) {l : List α}
    (h : l ≠ []) : (x :: l).getLast? = l.getLast? := by
  cases l with
  | nil => exact absurd rfl h
  | cons y ys => exact List.getLast?_cons_cons

theorem getLast?_append_of_ne_nil {α : Type} (xs : List α) {ys : List α}
    (h : ys ≠ []) : (xs ++ ys).getLast? = ys.getLast? := by
  induction xs with
  | nil => rfl
  | cons x xs ih =>
      rw [List.cons_append, getLast?_cons_of_ne_nil x, ih]
      intro hnil
      rcases List.append_eq_nil.mp hnil with ⟨_, h2⟩
      exact h h2

theorem mem_of_getLast? {α : Type} {l : List α} {x : α}
    (h : l.getLast? = some x) : x ∈ l := by
  induction l with
  | nil => exact absurd h (by simp)
  | cons y ys ih =>
      cases ys with
      | nil =>
          simp only [List.getLast?_singleton, Option.some.injEq] at h
          exact h ▸ List.mem_cons_self y []
      | cons z zs =>
          rw [List.getLast?_cons_cons] at h
          exact List.mem_cons_of_mem y (ih h)

theorem mem_map_iff_any {α κ : Type} [DecidableEq κ] (g : α → κ) (l : List α)
    (k : κ) : k ∈ l.map g ↔ l.any (fun x => decide (g x = k)) = true := by
  simp [List.any_eq_true, List.mem_map]

theorem filter_ne_nil_iff_any {α : Type} (p : α → Bool) (l : List α) :
    l.filter p ≠ [] ↔ l.any p = true := by
  rw [Ne, List.filter_eq_nil_iff, List.any_eq_true]
  constructor
  · intro h
    by_contra hn
    push_neg at hn
    exact h (fun a ha hpa => hn a ha hpa)
  · rintro ⟨x, hx, hpx⟩ h
    exact h x hx hpx

/-- The keys of the diagonally concatenated rows, computed over the union
columns, are exactly the keys of the two inputs computed over their own
columns. -/
theorem concatDiag_keys (t1 t2 : Table) (idCols : List String) :
    (concatDiag t1 t2).rows.map (keyOf (concatDiag t1 t2).cols idCols) =
      t1.rows.map (keyOf t1.cols idCols) ++
        t2.rows.map (keyOf t2.cols idCols) := by
  simp only [concatDiag, List.map_append, List.map_map]
  congr 1
  · exact List.map_congr_left (fun r _ => keyOf_reindex _ _ idCols r
      (subset_unionCols_left t1.cols t2.cols))
  · exact List.map_congr_left (fun r _ => keyOf_reindex _ _ idCols r
      (subset_unionCols_right t1.cols t2.cols))

/-- The rows of `upsertWith` filtered to one dedup-key value: the last
occurrence of that key in the concatenated rows, when the key occurs at
all, and nothing otherwise. -/
theorem upsertWith_filter_key (dedupCols sortCols : List String)
    (ex inc : Table) (k : List Cell) :
    (upsertWith dedupCols sortCols ex inc).rows.filter
        (fun r => decide (keyOf (concatDiag ex inc).cols dedupCols r = k)) =
      (((concatDiag ex inc).rows.filter
        (fun r => decide (keyOf (concatDiag ex inc).cols dedupCols r = k))).getLast?).toList := by
  have hperm :
      ((upsertWith dedupCols sortCols ex inc).rows.filter
        (fun r => decide (keyOf (concatDiag ex inc).cols dedupCols r = k))).Perm
      ((dedupLast (keyOf (concatDiag ex inc).cols dedupCols)
        (concatDiag ex inc).rows).filter
        (fun r => decide (keyOf (concatDiag ex inc).cols dedupCols r = k))) :=
    (perm_sortRows _ _).filter _
  rw [dedupLast_filter] at hperm
  cases hlast : (((concatDiag ex inc).rows.filter
      (fun r => decide (keyOf (concatDiag ex inc).cols dedupCols r = k))).getLast?) with
  | none =>
      rw [hlast] at hperm
      exact hperm.eq_nil
  | some y =>
      rw [hlast] at hperm
      exact List.perm_singleton.mp hperm

theorem table_ext {t1 t2 : Table} (h1 : t1.cols = t2.cols)
    (h2 : t1.rows = t2.rows) : t1 = t2 := by
  cases t1
  cases t2
  cases h1
  cases h2
  rfl

theorem upsertWith_cols (dedupCols sortCols : List String) (ex inc : Table) :
    (upsertWith dedupCols sortCols ex inc).cols = unionCols ex.cols inc.cols :=
  rfl

/-- The most recent business day strictly before `d`, when it exists, is a
business day below `d` with no business day in between. -/
theorem prevBday_spec {cal : Nat → Bool} :
    ∀ {d m : Nat}, prevBday cal d = some m →
      m < d ∧ cal m = true ∧ ∀ j, m < j → j < d → cal j = false := by
  intro d
  induction d with
  | zero => intro m h; exact absurd h (by simp [prevBday])
  | succ d ih =>
      intro m h
      rw [prevBday] at h
      by_cases hc : cal d = true
      · rw [if_pos hc] at h
        have hm : d = m := Option.some.inj h
        subst hm
        exact ⟨Nat.lt_succ_self d, hc, fun j hj1 hj2 => absurd hj1 (by omega)⟩
      · rw [if_neg hc] at h
        obtain ⟨h1, h2, h3⟩ := ih h
        refine ⟨by omega, h2, fun j hj1 hj2 => ?_⟩
        by_cases hjd : j = d
        · subst hjd
          exact Bool.eq_false_iff.mpr hc
        · exact h3 j hj1 (by omega)

/-! ### The claims -/

/-- C3: when the fetch returns a table with no rows, `update_dataset`
raises (`ValueError`) and the previously persisted table is left
unchanged — the write to storage happens only after the fetch has
succeeded non-empty and the merge has been computed. -/
theorem update_dataset_empty_fetch_is_error (idCols : List String)
    (stored fetched : Table) (h : fetched.rows = []) :
    update_dataset idCols stored fetched = Except.error "No data available" ∧
      runUpdate idCols stored fetched = stored := by
  constructor
  · rw [update_dataset, h]
    rfl
  · rw [runUpdate, update_dataset, h]
    rfl

/-- Witness for C3: a concrete one-row store and an empty fetch. -/
theorem update_dataset_empty_fetch_is_error_witness :
    update_dataset ["k"] (Table.mk ["k"] [[some 1]]) (Table.mk ["k"] []) =
        Except.error "No data available" ∧
      runUpdate ["k"] (Table.mk ["k"] [[some 1]]) (Table.mk ["k"] []) =
        Table.mk ["k"] [[some 1]] :=
  update_dataset_empty_fetch_is_error ["k"] (Table.mk ["k"] [[some 1]])
    (Table.mk ["k"] []) rfl

/-- C7: when the resolved target date is December 24 or December 31,
`main` returns before calling `update_dataset` for either dataset: both
stores are unchanged and no update runs. -/
theorem main_skips_special_holiday (target : Date)
    (diStore tpfStore diFetched tpfFetched : Table)
    (h : is_special_holiday target = true) :
    mainRun target diStore tpfStore diFetched tpfFetched =
      ((diStore, tpfStore), false) := by
  rw [mainRun, if_pos h]

/-- Witness for C7 on December 24, 2025. -/
theorem main_skips_special_holiday_witness :
    mainRun (Date.mk 2025 12 24) (Table.mk [] []) (Table.mk [] [])
        (Table.mk [] []) (Table.mk [] []) =
      ((Table.mk [] [], Table.mk [] []), false) :=
  main_skips_special_holiday (Date.mk 2025 12 24) (Table.mk [] [])
    (Table.mk [] []) (Table.mk [] []) (Table.mk [] []) (by decide)

/-- C6: when the fetched table lacks the required `SettlementRate` column,
`update_di.py`'s fetcher raises — the `ValueError` message when the
`DaysToExp` drop succeeded first, the drop's own `KeyError` when
`DaysToExp` is also absent — and either way the run performs no merge and
writes nothing: the stored table is unchanged. -/
theorem di_missing_required_column (stored fetched : Table)
    (h : "SettlementRate" ∉ fetched.cols) :
    (∃ e, runUpdateDi stored fetched = Except.error e) ∧
      updateDiStore stored fetched = stored := by
  by_cases hd : "DaysToExp" ∈ fetched.cols
  · have hget : get_di_on_date fetched =
        Except.error "There is no Settlement data for today." := by
      simp [get_di_on_date, dropColumn, hd, h]
    have hrun : runUpdateDi stored fetched =
        Except.error "There is no Settlement data for today." := by
      rw [runUpdateDi, hget]
    exact ⟨⟨_, hrun⟩, by rw [updateDiStore, hrun]⟩
  · have hget : get_di_on_date fetched = Except.error "KeyError" := by
      simp [get_di_on_date, dropColumn, hd]
    have hrun : runUpdateDi stored fetched = Except.error "KeyError" := by
      rw [runUpdateDi, hget]
    exact ⟨⟨_, hrun⟩, by rw [updateDiStore, hrun]⟩

/-- Witness for C6 at a fetched table with `DaysToExp` but without
`SettlementRate`. -/
theorem di_missing_required_column_witness :
    (∃ e, runUpdateDi (Table.mk ["TradeDate"] [[some 1]])
        (Table.mk ["TradeDate", "DaysToExp"] [[some 1, some 2]]) =
        Except.error e) ∧
      updateDiStore (Table.mk ["TradeDate"] [[some 1]])
        (Table.mk ["TradeDate", "DaysToExp"] [[some 1, some 2]]) =
        Table.mk ["TradeDate"] [[some 1]] :=
  di_missing_required_column (Table.mk ["TradeDate"] [[some 1]])
    (Table.mk ["TradeDate", "DaysToExp"] [[some 1, some 2]]) (by decide)

/-- C2: `determine_target_date` returns today when today is a business day
and the hour is at or past the cutoff 20; the business day offset -1 from
today when today is a business day before the cutoff; and the last
business day that existed when today is not a business day — where
`prevBday` is exactly the most recent business day strictly before today
(both `offset(today, -1)` on a business day and `last_business_day()` on a
non-business day resolve to it). -/
theorem determine_target_date_spec (cal : Nat → Bool) (today hour : Nat) :
    (cal today = true → 20 ≤ hour →
      determine_target_date cal today hour = some today) ∧
    (cal today = true → hour < 20 →
      determine_target_date cal today hour = prevBday cal today) ∧
    (cal today = false →
      determine_target_date cal today hour = prevBday cal today) ∧
    (∀ m, prevBday cal today = some m →
      m < today ∧ cal m = true ∧ ∀ j, m < j → j < today → cal j = false) := by
  refine ⟨fun h1 h2 => ?_, fun h1 h2 => ?_, fun h1 => ?_,
    fun m hm => prevBday_spec hm⟩
  · rw [determine_target_date, if_pos h1, if_neg (Nat.not_lt.mpr h2)]
  · rw [determine_target_date, if_pos h1, if_pos h2]
  · rw [determine_target_date, if_neg (by rw [h1]; exact Bool.false_ne_true),
      last_business_day, if_neg (by rw [h1]; exact Bool.false_ne_true)]

/-- Witness for C2: Tuesday evening (ordinal 9 on a Mon-Fri calendar) at
hour 21 resolves to today. -/
theorem determine_target_date_spec_witness :
    determine_target_date (fun d => decide (d % 7 < 5)) 9 21 = some 9 :=
  (determine_target_date_spec (fun d => decide (d % 7 < 5)) 9 21).1
    (by decide) (by decide)

/-- C8 counterexample: the resolver does not itself account for the two
fixed year-end holidays.  On an evening where the calendar oracle marks
December 24, 2025 a business day (the generic calendar does not exclude
it — that is why `main` filters separately), the resolver returns December
24 itself, a special holiday. -/
theorem resolver_returns_special_holiday :
    determineTargetDateD (fun _ => true) (fun d => d) (fun d => d)
        (Date.mk 2025 12 24) 21 = Date.mk 2025 12 24 ∧
      is_special_holiday (Date.mk 2025 12 24) = true := by
  exact ⟨rfl, by decide⟩

/-- C8 (amended): the target-date resolver is a deterministic, pure
function of the clock reading and the business-day calendar oracles — its
output depends only on the oracles' answers at today and on the hour, with
the cutoff hour 20 a hardcoded constant; the two fixed year-end holidays
are not consulted inside the resolver (`main` filters them afterwards via
`is_special_holiday`). -/
theorem resolver_deterministic (isB1 isB2 : Date → Bool)
    (off1 off2 lb1 lb2 : Date → Date) (today : Date) (hour : Nat)
    (hB : isB1 today = isB2 today) (hO : off1 today = off2 today)
    (hL : lb1 today = lb2 today) :
    determineTargetDateD isB1 off1 lb1 today hour =
      determineTargetDateD isB2 off2 lb2 today hour := by
  rw [determineTargetDateD, determineTargetDateD, hB, hO, hL]

/-- Witness for C8 (amended): two pointwise-agreeing oracle pairs resolve
the same morning to the same target date. -/
theorem resolver_deterministic_witness :
    determineTargetDateD (fun _ => true) (fun d => d) (fun d => d)
        (Date.mk 2025 6 2) 10 =
      determineTargetDateD (fun d => decide (d.month ≤ 12)) (fun d => d)
        (fun d => d) (Date.mk 2025 6 2) 10 :=
  resolver_deterministic (fun _ => true) (fun d => decide (d.month ≤ 12))
    (fun d => d) (fun d => d) (fun d => d) (fun d => d) (Date.mk 2025 6 2) 10
    (by decide) rfl rfl

/-- C10 (amended): `update_vna_dataframe` returns the existing table
unchanged when its maximum reference date is on or after today, or when
there is no business day strictly after that maximum date and at or
before today (the right-inclusive interval the code generates — which
includes today itself, unlike "strictly between"). -/
theorem update_vna_noop (cal : Nat → Bool) (today : Nat)
    (dfVna : List VnaRow) (payload : Nat → Int)
    (h : today ≤ maxRef dfVna ∨
      ∀ j, maxRef dfVna < j → j ≤ today → cal j = false) :
    update_vna_dataframe cal today dfVna payload = dfVna := by
  by_cases h1 : today ≤ maxRef dfVna
  · rw [update_vna_dataframe, if_pos h1]
  · have h2 : ∀ j, maxRef dfVna < j → j ≤ today → cal j = false :=
      h.resolve_left h1
    have hb : bdaysIn cal (maxRef dfVna) today = [] := by
      rw [bdaysIn, List.filter_eq_nil_iff]
      intro d hd hcond
      simp only [Bool.and_eq_true, decide_eq_true_eq] at hcond
      have hdt : d ≤ today := by
        have := List.mem_range.mp hd
        omega
      have := h2 d hcond.1 hdt
      rw [this] at hcond
      exact Bool.false_ne_true hcond.2
    rw [update_vna_dataframe, if_neg h1, if_pos (by rw [hb]; rfl)]

/-- Witness for C10 (amended): nothing to add when no day after the last
stored date is a business day. -/
theorem update_vna_noop_witness :
    update_vna_dataframe (fun _ => false) 10 [(8, 0)] (fun _ => 0) =
      [(8, 0)] :=
  update_vna_noop (fun _ => false) 10 [(8, 0)] (fun _ => 0)
    (Or.inr (fun _ _ _ => rfl))

/-- C10 counterexample: with only day 10 a business day, an existing table
whose maximum reference date is 8, and today = 10, no business day lies
strictly between 8 and today, yet `update_vna_dataframe` changes the
table: the generated interval is right-inclusive, so today's own business
day is appended. -/
theorem update_vna_strictly_between_false :
    (10 ≤ maxRef [((8 : Nat), (0 : Int))] ∨
      ∀ j, maxRef [((8 : Nat), (0 : Int))] < j → j < 10 →
        (fun d => decide (d = 10)) j = false) ∧
      update_vna_dataframe (fun d => decide (d = 10)) 10 [(8, 0)]
        (fun _ => 0) ≠ [(8, 0)] := by
  constructor
  · refine Or.inr (fun j h1 h2 => ?_)
    have h8 : maxRef [((8 : Nat), (0 : Int))] = 8 := rfl
    rw [h8] at h1
    have hj : j = 9 := by omega
    subst hj
    rfl
  · decide

/-- Membership in the upsert's output rows implies membership in the
diagonally concatenated rows (sorting permutes, deduplication selects). -/
theorem mem_upsertWith_rows {dedupCols sortCols : List String}
    {ex inc : Table} {r : Row}
    (h : r ∈ (upsertWith dedupCols sortCols ex inc).rows) :
    r ∈ (concatDiag ex inc).rows :=
  mem_of_mem_dedupLast ((perm_sortRows _ _).mem_iff.mp h)

/-- C4 (amended): in every revision the upsert output's rows are sorted
ascending by the revision's sort-column tuple.  (The sort columns coincide
with the dedup key columns in `update.py`, `update_anbima.py` and
`update_bc_sec.py`, but not in `update_di.py`.) -/
theorem upsertWith_sorted_by_sortCols (dedupCols sortCols : List String)
    (ex inc : Table) :
    (upsertWith dedupCols sortCols ex inc).rows.Pairwise (fun a b =>
      keyLe (keyOf (upsertWith dedupCols sortCols ex inc).cols sortCols a)
        (keyOf (upsertWith dedupCols sortCols ex inc).cols sortCols b) =
        true) := by
  apply sorted_sortRows
  · exact fun a b => keyLe_total _ _
  · exact fun _ _ _ h1 h2 => keyLe_trans h1 h2

/-- A stored table for the `update_di.py` counterexample. -/
def diStored0 : Table :=
  Table.mk ["TradeDate", "TickerSymbol", "ExpirationDate", "SettlementRate"]
    []

/-- A fetched table for the `update_di.py` counterexample: two contracts of
one trade date whose ticker order is the reverse of their expiration
order.  It carries both `DaysToExp` (so the drop succeeds) and
`SettlementRate` (so the fetcher validates). -/
def diFetched0 : Table :=
  Table.mk
    ["TradeDate", "TickerSymbol", "ExpirationDate", "DaysToExp",
      "SettlementRate"]
    [[some 1, some 2, some 5, some 100, some 0],
      [some 1, some 1, some 9, some 200, some 0]]

/-- C4 counterexample: the `update_di.py` revision deduplicates on
`(TradeDate, TickerSymbol)` but sorts by `(TradeDate, ExpirationDate)`;
on this input the written table is not sorted by the dedup key tuple, so
the output is not sorted by "the same ordered column set used for
deduplication" in every revision. -/
theorem updateDi_not_sorted_by_dedup_key :
    ¬ (updateDiStore diStored0 diFetched0).rows.Pairwise (fun a b =>
      keyLe (keyOf (updateDiStore diStored0 diFetched0).cols diKeyCols a)
        (keyOf (updateDiStore diStored0 diFetched0).cols diKeyCols b) =
        true) := by
  decide

/-- C5: the upsert output's column set is the union of the two inputs'
column sets, and every output row agrees cell-for-cell with a row of one
of the two inputs, reading null (`none`) at every column that row's source
table lacked — the diagonal concatenation semantics. -/
theorem upsert_column_union (idCols : List String) (ex inc : Table) :
    (∀ c, c ∈ (upsert idCols ex inc).cols ↔ (c ∈ ex.cols ∨ c ∈ inc.cols)) ∧
    (∀ r, r ∈ (upsert idCols ex inc).rows →
      (∃ r0 ∈ ex.rows,
        (∀ c, getCell (upsert idCols ex inc).cols r c = getCell ex.cols r0 c)
        ∧ ∀ c, c ∉ ex.cols → getCell (upsert idCols ex inc).cols r c = none)
      ∨
      (∃ r0 ∈ inc.rows,
        (∀ c, getCell (upsert idCols ex inc).cols r c = getCell inc.cols r0 c)
        ∧ ∀ c, c ∉ inc.cols →
          getCell (upsert idCols ex inc).cols r c = none)) := by
  constructor
  · intro c
    exact mem_unionCols c ex.cols inc.cols
  · intro r hr
    have hm : r ∈ (concatDiag ex inc).rows := mem_upsertWith_rows hr
    rcases List.mem_append.mp hm with hm | hm
    · left
      rcases List.mem_map.mp hm with ⟨r0, hr0, he⟩
      refine ⟨r0, hr0, fun c => ?_, fun c hc => ?_⟩
      · rw [← he]
        exact getCell_reindex ex.cols _ r0 c
          (subset_unionCols_left ex.cols inc.cols)
      · rw [← he]
        exact (getCell_reindex ex.cols _ r0 c
          (subset_unionCols_left ex.cols inc.cols)).trans
          (getCell_of_not_mem ex.cols r0 c hc)
    · right
      rcases List.mem_map.mp hm with ⟨r0, hr0, he⟩
      refine ⟨r0, hr0, fun c => ?_, fun c hc => ?_⟩
      · rw [← he]
        exact getCell_reindex inc.cols _ r0 c
          (subset_unionCols_right ex.cols inc.cols)
      · rw [← he]
        exact (getCell_reindex inc.cols _ r0 c
          (subset_unionCols_right ex.cols inc.cols)).trans
          (getCell_of_not_mem inc.cols r0 c hc)

/-- Witness for C5: a column present only in the incoming table is in the
output's column set. -/
theorem upsert_column_union_witness :
    "b" ∈ (upsert ["k"] (Table.mk ["k", "a"] [[some 1, some 10]])
      (Table.mk ["k", "b"] [[some 2, some 99]])).cols :=
  ((upsert_column_union ["k"] (Table.mk ["k", "a"] [[some 1, some 10]])
    (Table.mk ["k", "b"] [[some 2, some 99]])).1 "b").mpr (Or.inr (by decide))

/-- The upsert output has exactly one row with dedup key `k` precisely
when `k` occurs among the concatenated rows' keys. -/
theorem upsert_filter_key_length (idCols : List String) (ex inc : Table)
    (k : List Cell) :
    ((upsertWith idCols idCols ex inc).rows.filter
        (fun r => decide (keyOf (concatDiag ex inc).cols idCols r = k))).length = 1 ↔
      (concatDiag ex inc).rows.any
        (fun r => decide (keyOf (concatDiag ex inc).cols idCols r = k)) = true := by
  cases hlast : ((concatDiag ex inc).rows.filter
      (fun r => decide (keyOf (concatDiag ex inc).cols idCols r = k))).getLast? with
  | none =>
      rw [upsertWith_filter_key, hlast]
      have hF := List.getLast?_eq_none_iff.mp hlast
      have hany : (concatDiag ex inc).rows.any
          (fun r => decide (keyOf (concatDiag ex inc).cols idCols r = k)) = false := by
        cases hb : (concatDiag ex inc).rows.any
            (fun r => decide (keyOf (concatDiag ex inc).cols idCols r = k)) with
        | false => rfl
        | true => exact absurd hF ((filter_ne_nil_iff_any _ _).mpr hb)
      rw [hany]
      simp
  | some y =>
      rw [upsertWith_filter_key, hlast]
      have hne : (concatDiag ex inc).rows.filter
          (fun r => decide (keyOf (concatDiag ex inc).cols idCols r = k)) ≠ [] := by
        intro hF
        rw [hF] at hlast
        exact absurd hlast (by simp)
      rw [(filter_ne_nil_iff_any _ _).mp hne]
      simp [Option.toList]

/-- C1: for every existing and incoming table, the upsert output contains
exactly one row per key tuple occurring in the union of the two inputs;
and whenever a key occurs in the incoming table, the surviving row is one
of the incoming table's rows for that key (reindexed to the output's
columns) — newest wins. -/
theorem upsert_exactly_one_row_per_key (idCols : List String)
    (ex inc : Table) (k : List Cell) :
    (((upsert idCols ex inc).rows.filter
        (fun r => decide (keyOf (upsert idCols ex inc).cols idCols r = k))).length
          = 1 ↔
      (k ∈ ex.rows.map (keyOf ex.cols idCols) ∨
        k ∈ inc.rows.map (keyOf inc.cols idCols))) ∧
    (k ∈ inc.rows.map (keyOf inc.cols idCols) →
      ∀ r ∈ (upsert idCols ex inc).rows,
        keyOf (upsert idCols ex inc).cols idCols r = k →
        ∃ r0 ∈ inc.rows, keyOf inc.cols idCols r0 = k ∧
          r = reindex inc.cols (upsert idCols ex inc).cols r0) := by
  constructor
  · have h2 : (concatDiag ex inc).rows.any
        (fun r => decide (keyOf (concatDiag ex inc).cols idCols r = k)) = true ↔
        (k ∈ ex.rows.map (keyOf ex.cols idCols) ∨
          k ∈ inc.rows.map (keyOf inc.cols idCols)) := by
      rw [← mem_map_iff_any, concatDiag_keys, List.mem_append]
    exact (upsert_filter_key_length idCols ex inc k).trans h2
  · intro hk r hr hkey
    rcases List.mem_map.mp hk with ⟨r0, hr0, hkey0⟩
    have hBany : (inc.rows.map
          (reindex inc.cols (unionCols ex.cols inc.cols))).any
        (fun r2 => decide (keyOf (concatDiag ex inc).cols idCols r2 = k)) =
        true := by
      apply List.any_eq_true.mpr
      refine ⟨reindex inc.cols (unionCols ex.cols inc.cols) r0,
        List.mem_map_of_mem _ hr0, decide_eq_true ?_⟩
      exact (keyOf_reindex inc.cols (unionCols ex.cols inc.cols) idCols r0
        (subset_unionCols_right ex.cols inc.cols)).trans hkey0
    have hBne : (inc.rows.map
          (reindex inc.cols (unionCols ex.cols inc.cols))).filter
        (fun r2 => decide (keyOf (concatDiag ex inc).cols idCols r2 = k)) ≠
        [] := (filter_ne_nil_iff_any _ _).mpr hBany
    have hrf : r ∈ (upsertWith idCols idCols ex inc).rows.filter
        (fun r2 => decide (keyOf (concatDiag ex inc).cols idCols r2 = k)) :=
      List.mem_filter.mpr ⟨hr, decide_eq_true hkey⟩
    rw [upsertWith_filter_key] at hrf
    have hdecomp : (concatDiag ex inc).rows.filter
        (fun r2 => decide (keyOf (concatDiag ex inc).cols idCols r2 = k)) =
      (ex.rows.map (reindex ex.cols (unionCols ex.cols inc.cols))).filter
        (fun r2 => decide (keyOf (concatDiag ex inc).cols idCols r2 = k)) ++
      (inc.rows.map (reindex inc.cols (unionCols ex.cols inc.cols))).filter
        (fun r2 => decide (keyOf (concatDiag ex inc).cols idCols r2 = k)) :=
      List.filter_append _ _
    rw [hdecomp, getLast?_append_of_ne_nil _ hBne] at hrf
    cases hlast : ((inc.rows.map
        (reindex inc.cols (unionCols ex.cols inc.cols))).filter
        (fun r2 => decide (keyOf (concatDiag ex inc).cols idCols r2 = k))).getLast? with
    | none =>
        rw [hlast] at hrf
        exact absurd hrf (by simp)
    | some y =>
        rw [hlast] at hrf
        have hry : r = y := List.mem_singleton.mp hrf
        have hy := List.mem_filter.mp (mem_of_getLast? hlast)
        rcases List.mem_map.mp hy.1 with ⟨r1, hr1, he1⟩
        have hkr1 : keyOf (unionCols ex.cols inc.cols) idCols
            (reindex inc.cols (unionCols ex.cols inc.cols) r1) =
            keyOf inc.cols idCols r1 :=
          keyOf_reindex inc.cols (unionCols ex.cols inc.cols) idCols r1
            (subset_unionCols_right ex.cols inc.cols)
        rw [he1] at hkr1
        have hyk : keyOf (unionCols ex.cols inc.cols) idCols y = k :=
          of_decide_eq_true hy.2
        exact ⟨r1, hr1, hkr1.symm.trans hyk, hry.trans he1.symm⟩

/-- Witness for C1: the key `[some 2]` occurs in the incoming table, so
exactly one output row carries it. -/
theorem upsert_exactly_one_row_per_key_witness :
    ((upsert ["k"] (Table.mk ["k", "a"] [[some 1, some 10]])
        (Table.mk ["k", "b"] [[some 2, some 99]])).rows.filter
      (fun r => decide (keyOf (upsert ["k"]
        (Table.mk ["k", "a"] [[some 1, some 10]])
        (Table.mk ["k", "b"] [[some 2, some 99]])).cols ["k"] r =
        [some 2]))).length = 1 :=
  ((upsert_exactly_one_row_per_key ["k"]
    (Table.mk ["k", "a"] [[some 1, some 10]])
    (Table.mk ["k", "b"] [[some 2, some 99]]) [some 2]).1).mpr
    (Or.inr (by decide))

/-- Columns already containing a second list absorb it under union. -/
theorem unionCols_absorb (c1 c2 : List String) :
    unionCols (unionCols c1 c2) c2 = unionCols c1 c2 := by
  have h : c2.filter (fun c => decide (c ∉ unionCols c1 c2)) = [] := by
    rw [List.filter_eq_nil_iff]
    intro c hc hd
    exact (of_decide_eq_true hd) (subset_unionCols_right c1 c2 c hc)
  show unionCols c1 c2 ++
    c2.filter (fun c => decide (c ∉ unionCols c1 c2)) = unionCols c1 c2
  rw [h, List.append_nil]

/-- Rows of a diagonal concat are already expressed over the union
columns: reindexing them to those columns again is the identity. -/
theorem reindex_self_of_mem_concat {ex inc : Table} {r : Row}
    (h : r ∈ (concatDiag ex inc).rows) :
    reindex (unionCols ex.cols inc.cols) (unionCols ex.cols inc.cols) r =
      r := by
  rcases List.mem_append.mp h with h | h
  · rcases List.mem_map.mp h with ⟨r0, _, he⟩
    rw [← he]
    exact reindex_reindex ex.cols _ r0 (subset_unionCols_left ex.cols inc.cols)
  · rcases List.mem_map.mp h with ⟨r0, _, he⟩
    rw [← he]
    exact reindex_reindex inc.cols _ r0
      (subset_unionCols_right ex.cols inc.cols)

/-- Diagonally concatenating the upsert output with the same incoming
table changes nothing about the columns and merely appends the incoming
rows (reindexed to the same union columns) after the output rows. -/
theorem concatDiag_upsert_self (idCols : List String) (ex inc : Table) :
    concatDiag (upsert idCols ex inc) inc =
      Table.mk (unionCols ex.cols inc.cols)
        ((upsert idCols ex inc).rows ++
          inc.rows.map (reindex inc.cols (unionCols ex.cols inc.cols))) := by
  apply table_ext
  · show unionCols (unionCols ex.cols inc.cols) inc.cols =
      unionCols ex.cols inc.cols
    exact unionCols_absorb ex.cols inc.cols
  · show (upsert idCols ex inc).rows.map
        (reindex (unionCols ex.cols inc.cols)
          (unionCols (unionCols ex.cols inc.cols) inc.cols)) ++
      inc.rows.map (reindex inc.cols
        (unionCols (unionCols ex.cols inc.cols) inc.cols)) =
      (upsert idCols ex inc).rows ++
        inc.rows.map (reindex inc.cols (unionCols ex.cols inc.cols))
    rw [unionCols_absorb ex.cols inc.cols]
    congr 1
    have h1 : (upsert idCols ex inc).rows.map
        (reindex (unionCols ex.cols inc.cols)
          (unionCols ex.cols inc.cols)) =
        (upsert idCols ex inc).rows.map id :=
      List.map_congr_left
        (fun r hr => reindex_self_of_mem_concat (mem_upsertWith_rows hr))
    rw [h1, List.map_id]

/-- Re-running the upsert's dedup + sort over the output rows followed by
the same incoming rows reproduces the output rows. -/
theorem upsert_rows_second_pass (idCols : List String) (ex inc : Table) :
    sortRows (fun a b =>
        keyLe (keyOf (unionCols ex.cols inc.cols) idCols a)
          (keyOf (unionCols ex.cols inc.cols) idCols b))
      (dedupLast (keyOf (unionCols ex.cols inc.cols) idCols)
        ((upsert idCols ex inc).rows ++
          inc.rows.map (reindex inc.cols (unionCols ex.cols inc.cols)))) =
      (upsert idCols ex inc).rows := by
  have hout : (upsert idCols ex inc).rows =
      sortRows (fun a b =>
        keyLe (keyOf (unionCols ex.cols inc.cols) idCols a)
          (keyOf (unionCols ex.cols inc.cols) idCols b))
      (dedupLast (keyOf (unionCols ex.cols inc.cols) idCols)
        (ex.rows.map (reindex ex.cols (unionCols ex.cols inc.cols)) ++
          inc.rows.map (reindex inc.cols (unionCols ex.cols inc.cols)))) :=
    rfl
  have hp1 : ((upsert idCols ex inc).rows).Perm
      (dedupLast (keyOf (unionCols ex.cols inc.cols) idCols)
        (ex.rows.map (reindex ex.cols (unionCols ex.cols inc.cols)) ++
          inc.rows.map (reindex inc.cols (unionCols ex.cols inc.cols)))) := by
    rw [hout]
    exact perm_sortRows _ _
  have hd1 := pairwise_dedupLast (keyOf (unionCols ex.cols inc.cols) idCols)
    (ex.rows.map (reindex ex.cols (unionCols ex.cols inc.cols)) ++
      inc.rows.map (reindex inc.cols (unionCols ex.cols inc.cols)))
  have hdist_out : ((upsert idCols ex inc).rows).Pairwise
      (fun a b => keyOf (unionCols ex.cols inc.cols) idCols a ≠
        keyOf (unionCols ex.cols inc.cols) idCols b) :=
    (hp1.pairwise_iff (fun h => Ne.symm h)).mpr hd1
  have hstep1 := dedupLast_perm_prefix
    (inc.rows.map (reindex inc.cols (unionCols ex.cols inc.cols))) hp1
    hdist_out
  have hYeq : dedupLast (keyOf (unionCols ex.cols inc.cols) idCols)
      (dedupLast (keyOf (unionCols ex.cols inc.cols) idCols)
        (ex.rows.map (reindex ex.cols (unionCols ex.cols inc.cols)) ++
          inc.rows.map (reindex inc.cols (unionCols ex.cols inc.cols))) ++
        inc.rows.map (reindex inc.cols (unionCols ex.cols inc.cols))) =
      dedupLast (keyOf (unionCols ex.cols inc.cols) idCols)
        (ex.rows.map (reindex ex.cols (unionCols ex.cols inc.cols)) ++
          inc.rows.map (reindex inc.cols (unionCols ex.cols inc.cols))) := by
    rw [dedupLast_dedupLast_append, List.append_assoc,
      ← dedupLast_append_dedupLast,
      dedupLast_append_of_all_mem
        (fun x hx => List.any_eq_true.mpr ⟨x, hx, decide_eq_true rfl⟩),
      dedupLast_append_dedupLast]
  have hperm2 : (dedupLast (keyOf (unionCols ex.cols inc.cols) idCols)
      ((upsert idCols ex inc).rows ++
        inc.rows.map (reindex inc.cols (unionCols ex.cols inc.cols)))).Perm
      (dedupLast (keyOf (unionCols ex.cols inc.cols) idCols)
        (ex.rows.map (reindex ex.cols (unionCols ex.cols inc.cols)) ++
          inc.rows.map (reindex inc.cols (unionCols ex.cols inc.cols)))) := by
    have h := hstep1
    rw [hYeq] at h
    exact h
  have hfullperm : (sortRows (fun a b =>
      keyLe (keyOf (unionCols ex.cols inc.cols) idCols a)
        (keyOf (unionCols ex.cols inc.cols) idCols b))
    (dedupLast (keyOf (unionCols ex.cols inc.cols) idCols)
      ((upsert idCols ex inc).rows ++
        inc.rows.map (reindex inc.cols (unionCols ex.cols inc.cols))))).Perm
      ((upsert idCols ex inc).rows) :=
    ((perm_sortRows _ _).trans hperm2).trans hp1.symm
  have hs1 := sorted_sortRows
    (fun a b => keyLe_total (keyOf (unionCols ex.cols inc.cols) idCols a)
      (keyOf (unionCols ex.cols inc.cols) idCols b))
    (fun _ _ _ h1 h2 => keyLe_trans h1 h2)
    (dedupLast (keyOf (unionCols ex.cols inc.cols) idCols)
      ((upsert idCols ex inc).rows ++
        inc.rows.map (reindex inc.cols (unionCols ex.cols inc.cols))))
  have hs2 : ((upsert idCols ex inc).rows).Pairwise (fun a b =>
      keyLe (keyOf (unionCols ex.cols inc.cols) idCols a)
        (keyOf (unionCols ex.cols inc.cols) idCols b) = true) := by
    rw [hout]
    exact sorted_sortRows
      (fun a b => keyLe_total (keyOf (unionCols ex.cols inc.cols) idCols a)
        (keyOf (unionCols ex.cols inc.cols) idCols b))
      (fun _ _ _ h1 h2 => keyLe_trans h1 h2) _
  have hd2 : (sortRows (fun a b =>
      keyLe (keyOf (unionCols ex.cols inc.cols) idCols a)
        (keyOf (unionCols ex.cols inc.cols) idCols b))
    (dedupLast (keyOf (unionCols ex.cols inc.cols) idCols)
      ((upsert idCols ex inc).rows ++
        inc.rows.map
          (reindex inc.cols (unionCols ex.cols inc.cols))))).Pairwise
      (fun a b => keyOf (unionCols ex.cols inc.cols) idCols a ≠
        keyOf (unionCols ex.cols inc.cols) idCols b) :=
    ((perm_sortRows _ _).pairwise_iff (fun h => Ne.symm h)).mpr
      (pairwise_dedupLast _ _)
  exact eq_of_perm_sorted_keys (fun _ _ h1 h2 => keyLe_antisymm h1 h2)
    _ _ hfullperm hs1 hs2 hd2

/-- C9: the upsert is idempotent in its incoming argument: merging the
same incoming table into the result of a first merge reproduces the first
result exactly (same columns, same rows, same order). -/
theorem upsert_idempotent (idCols : List String) (ex inc : Table) :
    upsert idCols (upsert idCols ex inc) inc = upsert idCols ex inc := by
  apply table_ext
  · show unionCols (unionCols ex.cols inc.cols) inc.cols =
      (upsert idCols ex inc).cols
    exact unionCols_absorb ex.cols inc.cols
  · show sortRows (fun a b =>
        keyLe (keyOf (concatDiag (upsert idCols ex inc) inc).cols idCols a)
          (keyOf (concatDiag (upsert idCols ex inc) inc).cols idCols b))
      (dedupLast (keyOf (concatDiag (upsert idCols ex inc) inc).cols idCols)
        (concatDiag (upsert idCols ex inc) inc).rows) =
      (upsert idCols ex inc).rows
    rw [concatDiag_upsert_self idCols ex inc]
    exact upsert_rows_second_pass idCols ex inc

end PyieldData
